import Mathlib

/-!
Verification of the EVM interpreter shared analysis cache
(`ethcore/evm/src/interpreter/shared_cache.rs`).

The development shallowly embeds the code: `usize` becomes `Nat` (the host
word is 64 bits wide, recorded explicitly where the code depends on it),
the external `bit_set::BitSet` becomes a capacity-carrying finite set of
bit indices, and the while loops become recursions on the loops' own
progress measures.
-/

/-- Bit width of the host machine word (`mem::size_of::<usize>() * 8`
in the source, on the 64-bit hosts the code targets). -/
def usize_bits : Nat := 64

/-- Model of the external `bit_set::BitSet` as used by this file: a finite
set of set bit indices together with a capacity in bits.  Per the spec's
data model the analyzer sizes every bitset it creates exactly to the code
length (`BitSet::with_capacity(code.len())`).  `shrink_to_fit` of the
`bit_set` crate only truncates the storage vector's length (a `Vec`
truncation never releases its allocation), so it does not change
`capacity()` and is modelled as the identity. -/
structure BitSet where
  capacity : Nat
  bits : Finset Nat
  deriving DecidableEq

/-- `BitSet::with_capacity(nbits)`. -/
def BitSet.with_capacity (nbits : Nat) : BitSet :=
  { capacity := nbits, bits := ∅ }

/-- `BitSet::insert(value)`: sets a bit, growing the capacity if the bit
lies beyond it. -/
def BitSet.insert (s : BitSet) (value : Nat) : BitSet :=
  { capacity := max s.capacity (value + 1), bits := Insert.insert value s.bits }

/-- `BitSet::contains(value)`. -/
def BitSet.contains (s : BitSet) (value : Nat) : Bool :=
  decide (value ∈ s.bits)

/-- `SubLengthBits`: the subroutine length index, a newtype around one
shared bitmap (field `.0` in the source, called `bitmap` here). -/
structure SubLengthBits where
  bitmap : BitSet
  deriving DecidableEq

/-- `SubLengthBits::new(code)`: a bitmap sized to the code length. -/
def SubLengthBits.new (code : List Nat) : SubLengthBits :=
  ⟨BitSet.with_capacity code.length⟩

/-- The `while l > 0` loop of `SubLengthBits::store`: writes the binary
digits of `l` (least significant first) at ascending bit positions
starting at `bit`. -/
def storeLoop (bm : BitSet) (bit l : Nat) : BitSet :=
  if h : l = 0 then bm
  else storeLoop (if l &&& 1 = 1 then bm.insert bit else bm) (bit + 1) (l >>> 1)
  termination_by l
  decreasing_by
    rw [Nat.shiftRight_one]
    exact Nat.div_lt_self (Nat.pos_of_ne_zero h) one_lt_two

/-- `SubLengthBits::store(sub_start, sub_length)`. -/
def SubLengthBits.store (s : SubLengthBits) (sub_start sub_length : Nat) : SubLengthBits :=
  ⟨storeLoop s.bitmap sub_start sub_length⟩

/-- The `while` loop of `SubLengthBits::find_length`: each iteration first
checks `bit < usize_bits - 1`, that `sub_start` plus the partial value so
far is below the capacity of `begin_subs`, and that it is not a member of
`begin_subs`; then increments `bit` and ORs bit `sub_start + bit` of the
bitmap into the value at significance `bit`. -/
def findLoop (bm begin_subs : BitSet) (sub_start length bit : Nat) : Nat :=
  if h : bit < usize_bits - 1 ∧ sub_start + length < begin_subs.capacity ∧
      begin_subs.contains (sub_start + length) = false then
    findLoop bm begin_subs sub_start
      (length ||| ((if bm.contains (sub_start + (bit + 1)) then 1 else 0) <<< (bit + 1)))
      (bit + 1)
  else length
  termination_by usize_bits - 1 - bit
  decreasing_by
    have := h.1
    omega

/-- `SubLengthBits::find_length(sub_start, begin_subs)`: seeds the result
with bit `sub_start` of the bitmap and runs the decode loop. -/
def SubLengthBits.find_length (s : SubLengthBits) (sub_start : Nat) (begin_subs : BitSet) : Nat :=
  findLoop s.bitmap begin_subs sub_start (if s.bitmap.contains sub_start then 1 else 0) 0

/-- Classification of one byte-code byte, as the scanner consumes it. -/
inductive Classified where
  | jumpdest
  | beginsub
  | push (k : Nat)
  | other
  deriving DecidableEq

/-- Modelled from the spec: the Instruction Classifier
(`Instruction::from_u8` / `Instruction::push_bytes` of the repository's
`instructions` module, which is not part of the provided sources).  Per
the spec's external-interface contract and the source file's tests:
JUMPDEST is byte 0x5b, BEGINSUB is byte 0x5c, the data-push instructions
are bytes 0x60 through 0x7f carrying `byte - 0x5f` immediate bytes, and
every other byte (recognized instruction or not) is treated by the
scanner as a single-byte step, so both are merged into `other`. -/
def classify (b : Nat) : Classified :=
  if b = 0x5b then .jumpdest
  else if b = 0x5c then .beginsub
  else if 0x60 ≤ b ∧ b ≤ 0x7f then .push (b - 0x5f)
  else .other

/-- The scan loop of `SharedCache::find_jump_and_sub_destinations`.
Returns the jump-destination set, the subroutine-entry set, the length
index, and the final values of the `position` and `sub_start` cursors. -/
def scanLoop (code : List Nat) (position sub_start : Nat)
    (jump_dests sub_entrypoints : BitSet) (sub_lengths : SubLengthBits) :
    BitSet × BitSet × SubLengthBits × Nat × Nat :=
  if h : position < code.length then
    match classify (code.getD position 0) with
    | .jumpdest =>
        scanLoop code (position + 1) sub_start (jump_dests.insert position)
          sub_entrypoints sub_lengths
    | .beginsub =>
        scanLoop code (position + 1) position jump_dests
          (sub_entrypoints.insert position)
          (sub_lengths.store sub_start (position - sub_start))
    | .push k =>
        scanLoop code (position + k + 1) sub_start jump_dests sub_entrypoints sub_lengths
    | .other =>
        scanLoop code (position + 1) sub_start jump_dests sub_entrypoints sub_lengths
  else (jump_dests, sub_entrypoints, sub_lengths, position, sub_start)
  termination_by code.length - position
  decreasing_by all_goals omega

/-- `CacheItem`: the immutable triple of analysis artifacts.  The `Arc`
sharing wrappers (`Bits`, `SubLengths`) carry no value-level content and
are elided. -/
structure CacheItem where
  jump_destination : BitSet
  sub_entrypoint : BitSet
  sub_length : SubLengthBits
  deriving DecidableEq

/-- `SharedCache::find_jump_and_sub_destinations(code)`: runs the scan
loop from position 0 and then stores `position - sub_start` as the length
of the final subroutine.  The trailing `shrink_to_fit` calls do not
change any `capacity()` (see `BitSet`) and are elided. -/
def SharedCache.find_jump_and_sub_destinations (code : List Nat) : CacheItem :=
  let r := scanLoop code 0 0 (BitSet.with_capacity code.length)
      (BitSet.with_capacity code.length) (SubLengthBits.new code)
  { jump_destination := r.1
    sub_entrypoint := r.2.1
    sub_length := r.2.2.1.store r.2.2.2.2 (r.2.2.2.1 - r.2.2.2.2) }

/-- The position following `position` in the scan: pushes skip their
immediate bytes, everything else advances by one. -/
def nextPosition (code : List Nat) (position : Nat) : Nat :=
  match classify (code.getD position 0) with
  | .push k => position + k + 1
  | _ => position + 1

theorem lt_nextPosition (code : List Nat) (position : Nat) :
    position < nextPosition code position := by
  unfold nextPosition
  cases classify (code.getD position 0) <;> simp <;> omega

/-- The positions the scan loop classifies, in order, starting from
`position`; offsets inside push-data are exactly the in-range offsets
missing from this list. -/
def scanPositions (code : List Nat) (position : Nat) : List Nat :=
  if h : position < code.length then
    position :: scanPositions code (nextPosition code position)
  else []
  termination_by code.length - position
  decreasing_by
    have := lt_nextPosition code position
    omega

/-- `KECCAK_EMPTY`: the well-known hash of the empty byte sequence.
Hashes (`H256`) are modelled as natural numbers. -/
def KECCAK_EMPTY : Nat :=
  0xc5d2460186f7233c927e7db2dcc703c0e500b653ca82273b7bfad8045d85a470

/-- Estimated memory footprint of a cache item, per the `MallocSizeOf`
implementations in the source: each of the three bitsets reports
`capacity() * 8`. -/
def CacheItem.footprint (it : CacheItem) : Nat :=
  it.jump_destination.capacity * 8 + it.sub_entrypoint.capacity * 8 +
    it.sub_length.bitmap.capacity * 8

/-- Total estimated footprint of a list of cache entries. -/
def totalFootprint (entries : List (Nat × CacheItem)) : Nat :=
  (entries.map fun e => e.2.footprint).sum

/-- Modelled from the spec: `MemoryLruCache` (the repository's
`memory-cache` util crate, not part of the provided sources): an LRU
table keyed by hash, bounded by the total estimated footprint of the
values it holds.  `entries` is ordered most-recently-used first. -/
structure MemoryLruCache where
  max_size : Nat
  entries : List (Nat × CacheItem)
  deriving DecidableEq

/-- `MemoryLruCache::new(max_size)`. -/
def MemoryLruCache.new (max_size : Nat) : MemoryLruCache :=
  { max_size := max_size, entries := [] }

/-- Modelled from the spec: a cache hit returns the entry and marks it
most-recently-used; a miss leaves the table untouched. -/
def MemoryLruCache.get_mut (c : MemoryLruCache) (h : Nat) :
    Option CacheItem × MemoryLruCache :=
  match c.entries.find? (fun e => e.1 == h) with
  | some e =>
      (some e.2, { max_size := c.max_size, entries := e :: c.entries.filter (fun e2 => e2.1 != h) })
  | none => (none, c)

/-- Eviction: drop least-recently-used entries (from the back) until the
total estimated footprint fits the byte budget. -/
def evictLRU (max : Nat) (l : List (Nat × CacheItem)) : List (Nat × CacheItem) :=
  if totalFootprint l ≤ max then l
  else
    match l with
    | [] => []
    | a :: as => evictLRU max ((a :: as).dropLast)
  termination_by l.length
  decreasing_by
    simp

/-- Modelled from the spec: `MemoryLruCache::insert` places the new entry
most-recently-used (displacing any previous entry under the same key) and
then evicts least-recently-used entries until the total estimated
footprint is within the byte budget. -/
def MemoryLruCache.insert (c : MemoryLruCache) (h : Nat) (v : CacheItem) : MemoryLruCache :=
  { max_size := c.max_size,
    entries := evictLRU c.max_size ((h, v) :: c.entries.filter (fun e => e.1 != h)) }

/-- Lookup without touching, used to phrase hypotheses about the table's
contents. -/
def MemoryLruCache.lookup (c : MemoryLruCache) (h : Nat) : Option CacheItem :=
  (c.entries.find? (fun e => e.1 == h)).map (fun e => e.2)

/-- `SharedCache`: the process-wide cache (the `Mutex` only serializes
access and carries no sequential meaning). -/
structure SharedCache where
  jump_destinations : MemoryLruCache
  deriving DecidableEq

/-- `SharedCache::new(max_size)`. -/
def SharedCache.new (max_size : Nat) : SharedCache :=
  ⟨MemoryLruCache.new max_size⟩

/-- `DEFAULT_CACHE_SIZE`. -/
def DEFAULT_CACHE_SIZE : Nat := 4 * 1024 * 1024

/-- `SharedCache::jump_and_sub_destinations(code_hash, code)`: returns
the artifact triple together with the updated cache state.  The
empty-code hash bypasses the table entirely; a hit returns the cached
entry (touched); a miss computes fresh and, when a hash is present,
inserts under it. -/
def SharedCache.jump_and_sub_destinations (cache : SharedCache) (code_hash : Option Nat)
    (code : List Nat) : (BitSet × BitSet × SubLengthBits) × SharedCache :=
  match code_hash with
  | some h =>
      if h = KECCAK_EMPTY then
        let cache_item := SharedCache.find_jump_and_sub_destinations code
        ((cache_item.jump_destination, cache_item.sub_entrypoint, cache_item.sub_length), cache)
      else
        match cache.jump_destinations.get_mut h with
        | (some d, t) => ((d.jump_destination, d.sub_entrypoint, d.sub_length), ⟨t⟩)
        | (none, t) =>
            let d := SharedCache.find_jump_and_sub_destinations code
            ((d.jump_destination, d.sub_entrypoint, d.sub_length), ⟨t.insert h d⟩)
  | none =>
      let d := SharedCache.find_jump_and_sub_destinations code
      ((d.jump_destination, d.sub_entrypoint, d.sub_length), cache)

/-- One `get_or_compute` call viewed as a state transformer, for stating
properties of call sequences. -/
def applyCall (c : SharedCache) (call : Option Nat × List Nat) : SharedCache :=
  (SharedCache.jump_and_sub_destinations c call.1 call.2).2

/-! ### Helper lemmas about the length-index bitmap -/

theorem mem_storeLoop : ∀ (l : Nat) (bm : BitSet) (bit x : Nat),
    x ∈ (storeLoop bm bit l).bits ↔
      x ∈ bm.bits ∨ ∃ i, l.testBit i = true ∧ x = bit + i := by
  intro l
  induction l using Nat.strong_induction_on with
  | _ l ihl =>
  intro bm bit x
  by_cases h : l = 0
  · subst h
    rw [storeLoop]
    simp [Nat.zero_testBit]
  · have hdec : l >>> 1 < l := by
      rw [Nat.shiftRight_one]
      exact Nat.div_lt_self (Nat.pos_of_ne_zero h) one_lt_two
    rw [storeLoop, dif_neg h, ihl (l >>> 1) hdec]
    have hshift : ∀ i, (l >>> 1).testBit i = l.testBit (i + 1) := by
      intro i
      rw [Nat.shiftRight_one, Nat.testBit_div_two]
    constructor
    · rintro (hx | ⟨i, hi, rfl⟩)
      · by_cases hb : l &&& 1 = 1
        · rw [if_pos hb] at hx
          unfold BitSet.insert at hx
          rcases Finset.mem_insert.mp hx with rfl | hx
          · refine Or.inr ⟨0, ?_, by omega⟩
            rw [Nat.testBit_zero, Nat.and_one_is_mod] at *
            simp [hb]
          · exact Or.inl hx
        · rw [if_neg hb] at hx
          exact Or.inl hx
      · exact Or.inr ⟨i + 1, by rw [← hshift]; exact hi, by omega⟩
    · rintro (hx | ⟨i, hi, rfl⟩)
      · refine Or.inl ?_
        by_cases hb : l &&& 1 = 1
        · rw [if_pos hb]
          exact Finset.mem_insert_of_mem hx
        · rw [if_neg hb]
          exact hx
      · cases i with
        | zero =>
          refine Or.inl ?_
          have hb : l &&& 1 = 1 := by
            rw [Nat.and_one_is_mod]
            rw [Nat.testBit_zero] at hi
            simpa using hi
          rw [if_pos hb]
          unfold BitSet.insert
          simp
        | succ i =>
          refine Or.inr ⟨i, ?_, by omega⟩
          rw [hshift]
          exact hi

theorem store_fresh_contains (code : List Nat) (start L j : Nat) :
    ((SubLengthBits.new code).store start L).bitmap.contains (start + j) = L.testBit j := by
  unfold SubLengthBits.store SubLengthBits.new BitSet.contains
  rcases hb : L.testBit j with _ | _
  · simp only [decide_eq_false_iff_not]
    rw [mem_storeLoop]
    rintro (h | ⟨i, hi, he⟩)
    · simp [BitSet.with_capacity] at h
    · have : i = j := by omega
      subst this
      rw [hb] at hi
      cases hi
  · simp only [decide_eq_true_eq]
    rw [mem_storeLoop]
    exact Or.inr ⟨j, hb, rfl⟩

theorem mod_two_pow_lor_bit (L k : Nat) :
    L % 2 ^ (k + 1) ||| ((if L.testBit (k + 1) then 1 else 0) <<< (k + 1)) = L % 2 ^ (k + 2) := by
  apply Nat.eq_of_testBit_eq
  intro j
  rw [Nat.testBit_lor, Nat.testBit_mod_two_pow, Nat.testBit_mod_two_pow, Nat.testBit_shiftLeft]
  have ht1 : ∀ m : Nat, Nat.testBit 1 m = decide (0 = m) := by
    intro m
    rw [show (1 : Nat) = 2 ^ 0 from rfl, Nat.testBit_two_pow]
  rcases lt_trichotomy j (k + 1) with hj | hj | hj
  · have d1 : decide (j < k + 1) = true := decide_eq_true hj
    have d2 : decide (j < k + 2) = true := decide_eq_true (by omega)
    have d3 : decide (j ≥ k + 1) = false := decide_eq_false (by omega)
    rw [d1, d2, d3]
    simp
  · subst hj
    have d1 : decide (k + 1 < k + 1) = false := decide_eq_false (by omega)
    have d2 : decide (k + 1 < k + 2) = true := decide_eq_true (by omega)
    have d3 : decide (k + 1 ≥ k + 1) = true := decide_eq_true (by omega)
    rw [d1, d2, d3]
    by_cases hL : L.testBit (k + 1)
    · rw [if_pos hL, ht1]
      simp [hL]
    · rw [if_neg hL, Nat.zero_testBit]
      simp [Bool.eq_false_iff.mpr hL]
  · have d1 : decide (j < k + 1) = false := decide_eq_false (by omega)
    have d2 : decide (j < k + 2) = false := decide_eq_false (by omega)
    rw [d1, d2]
    by_cases hL : L.testBit (k + 1)
    · rw [if_pos hL, ht1]
      have d3 : decide (0 = j - (k + 1)) = false := decide_eq_false (by omega)
      rw [d3]
      simp
    · rw [if_neg hL, Nat.zero_testBit]
      simp

theorem findLoop_decodes (bm bs : BitSet) (start L : Nat)
    (hL : L < 2 ^ usize_bits)
    (hbits : ∀ j, bm.contains (start + j) = L.testBit j)
    (hglobal : ∀ p, p < L → start + p < bs.capacity ∧ bs.contains (start + p) = false) :
    ∀ n bit length, usize_bits - 1 - bit = n → length = L % 2 ^ (bit + 1) →
      findLoop bm bs start length bit = L := by
  intro n
  induction n with
  | zero =>
    intro bit length hn hlen
    rw [findLoop]
    have hbig : ¬ (bit < usize_bits - 1) := by omega
    rw [dif_neg (fun hc => hbig hc.1)]
    have hlt : L < 2 ^ (bit + 1) := by
      refine lt_of_lt_of_le hL (Nat.pow_le_pow_right (by norm_num) ?_)
      unfold usize_bits at *
      omega
    rw [hlen, Nat.mod_eq_of_lt hlt]
  | succ n ih =>
    intro bit length hn hlen
    rw [findLoop]
    by_cases hc : bit < usize_bits - 1 ∧ start + length < bs.capacity ∧
        bs.contains (start + length) = false
    · rw [dif_pos hc]
      refine ih (bit + 1) _ (by omega) ?_
      rw [hlen, hbits (bit + 1), mod_two_pow_lor_bit]
    · rw [dif_neg hc]
      have hle : length ≤ L := hlen ▸ Nat.mod_le L _
      rcases Nat.lt_or_ge length L with hlt | hge
      · exfalso
        obtain ⟨h1, h2⟩ := hglobal length hlt
        have hbit : ¬ (bit < usize_bits - 1) := fun hb => hc ⟨hb, h1, h2⟩
        have hlt2 : L < 2 ^ (bit + 1) := by
          refine lt_of_lt_of_le hL (Nat.pow_le_pow_right (by norm_num) ?_)
          unfold usize_bits at *
          omega
        rw [hlen, Nat.mod_eq_of_lt hlt2] at hlt
        omega
      · omega

theorem find_length_store_fresh (code : List Nat) (start L : Nat) (bs : BitSet)
    (hL : L < 2 ^ usize_bits)
    (hcap : start + L ≤ bs.capacity)
    (hb : ∀ p, p < L → (start + p) ∉ bs.bits) :
    ((SubLengthBits.new code).store start L).find_length start bs = L := by
  unfold SubLengthBits.find_length
  have hbits := store_fresh_contains code start L
  refine findLoop_decodes _ _ _ _ hL hbits ?_ (usize_bits - 1 - 0) 0 _ rfl ?_
  · intro p hp
    refine ⟨by omega, ?_⟩
    unfold BitSet.contains
    simp [hb p hp]
  · have h0 := hbits 0
    rw [Nat.add_zero] at h0
    rw [h0, pow_one, Nat.testBit_zero]
    rcases Nat.mod_two_eq_zero_or_one L with hm | hm <;> simp [hm]

/-! ### Reference decode definitions for claim C2 -/

/-- Decode rule as claim C2 states it, following its words: reconstruct a
value by reading consecutive bits `start, start + 1, start + 2, ...` of
the bitmap with increasing significance, reading bit `start + i` only
when no offset of the boundaries set strictly greater than `start` has
been reached yet (that is, no boundary lies in `(start, start + i]`), and
reading at most machine-word-width-minus-one bits. -/
def find_length_claimed_rule (s : SubLengthBits) (sub_start : Nat) (begin_subs : BitSet) : Nat :=
  (List.range (usize_bits - 1)).foldl
    (fun v i =>
      if (List.range i).all (fun j => decide ((sub_start + j + 1) ∉ begin_subs.bits)) then
        v ||| ((if (sub_start + i) ∈ s.bitmap.bits then 1 else 0) <<< i)
      else v) 0

/-- Modelled from the amended description of the decode rule: after
seeding with bit `sub_start`, repeatedly — while fewer than
machine-word-width-minus-one extra bits have been read, and `sub_start`
plus the value reconstructed so far is below the capacity of the
boundaries set and is not an offset present in the boundaries set — read
the next bit `sub_start + i` (for `i = 1, 2, ...`) and OR it in at
significance `i`.  The stopping test looks at `sub_start` plus the
current partial value, not at the position of the bit being read. -/
def decodeStep (bm begin_subs : BitSet) (sub_start : Nat) : Nat → Nat → Nat → Nat
  | 0, v, _ => v
  | fuel + 1, v, i =>
      if sub_start + v < begin_subs.capacity ∧ (sub_start + v) ∉ begin_subs.bits then
        decodeStep bm begin_subs sub_start fuel
          (v ||| ((if (sub_start + i) ∈ bm.bits then 1 else 0) <<< i)) (i + 1)
      else v

/-- Reference decode per the amended claim C2, with a budget of
`usize_bits - 1` extra bits after the seed bit. -/
def find_length_model (s : SubLengthBits) (sub_start : Nat) (begin_subs : BitSet) : Nat :=
  decodeStep s.bitmap begin_subs sub_start (usize_bits - 1)
    (if sub_start ∈ s.bitmap.bits then 1 else 0) 1

theorem findLoop_eq_decodeStep (bm bs : BitSet) (start : Nat) :
    ∀ n bit v, usize_bits - 1 - bit = n →
      findLoop bm bs start v bit = decodeStep bm bs start n v (bit + 1) := by
  intro n
  induction n with
  | zero =>
    intro bit v hn
    rw [findLoop, decodeStep]
    rw [dif_neg]
    rintro ⟨h1, -⟩
    omega
  | succ n ih =>
    intro bit v hn
    rw [findLoop, decodeStep]
    by_cases hc : start + v < bs.capacity ∧ (start + v) ∉ bs.bits
    · have hcb : bs.contains (start + v) = false := by
        unfold BitSet.contains
        exact decide_eq_false hc.2
      rw [dif_pos ⟨by omega, hc.1, hcb⟩, if_pos hc]
      have halign : (if bm.contains (start + (bit + 1)) then 1 else 0) =
          (if (start + (bit + 1)) ∈ bm.bits then 1 else 0 : Nat) := by
        unfold BitSet.contains
        by_cases hm : (start + (bit + 1)) ∈ bm.bits <;> simp [hm]
      rw [halign]
      exact ih (bit + 1) _ (by omega)
    · rw [if_neg hc, dif_neg]
      rintro ⟨-, h2, h3⟩
      unfold BitSet.contains at h3
      rw [decide_eq_false_iff_not] at h3
      exact hc ⟨h2, h3⟩

/-- C2 (amended): `find_length(start, boundaries)` seeds its result with
bit `start` of the bitmap and then reads the consecutive bits
`start + 1, start + 2, ...` with increasing significance, but the
stopping rule is applied to `start` plus the partially reconstructed
value: before each read the loop requires that this sum is below the
capacity of the boundaries set and is not itself an offset present in the
boundaries set, and at most machine-word-width-minus-one extra bits are
read.  (It does not stop at the first boundary offset strictly greater
than `start`: the boundary test is on the partial value, so it can stop
at `start` itself, or sail past the next boundary.) -/
theorem find_length_decode_rule (s : SubLengthBits) (sub_start : Nat) (begin_subs : BitSet) :
    s.find_length sub_start begin_subs = find_length_model s sub_start begin_subs := by
  unfold SubLengthBits.find_length find_length_model
  have hseed : (if s.bitmap.contains sub_start then 1 else 0) =
      (if sub_start ∈ s.bitmap.bits then 1 else 0 : Nat) := by
    unfold BitSet.contains
    by_cases hm : sub_start ∈ s.bitmap.bits <;> simp [hm]
  rw [hseed]
  exact findLoop_eq_decodeStep s.bitmap begin_subs sub_start (usize_bits - 1) 0 _ rfl

/-! ### Helper lemmas about the scan loop -/

theorem scanPositions_unfold (code : List Nat) (position : Nat) (h : position < code.length) :
    scanPositions code position = position :: scanPositions code (nextPosition code position) := by
  rw [scanPositions, dif_pos h]

theorem scanLoop_unfold_jumpdest (code : List Nat) (position sub_start : Nat)
    (jd se : BitSet) (sl : SubLengthBits)
    (h : position < code.length)
    (hcl : classify (code.getD position 0) = Classified.jumpdest) :
    scanLoop code position sub_start jd se sl =
      scanLoop code (position + 1) sub_start (jd.insert position) se sl := by
  rw [scanLoop, dif_pos h, hcl]

theorem scanLoop_unfold_beginsub (code : List Nat) (position sub_start : Nat)
    (jd se : BitSet) (sl : SubLengthBits)
    (h : position < code.length)
    (hcl : classify (code.getD position 0) = Classified.beginsub) :
    scanLoop code position sub_start jd se sl =
      scanLoop code (position + 1) position jd (se.insert position)
        (sl.store sub_start (position - sub_start)) := by
  rw [scanLoop, dif_pos h, hcl]

theorem scanLoop_unfold_push (code : List Nat) (position sub_start k : Nat)
    (jd se : BitSet) (sl : SubLengthBits)
    (h : position < code.length)
    (hcl : classify (code.getD position 0) = Classified.push k) :
    scanLoop code position sub_start jd se sl =
      scanLoop code (position + k + 1) sub_start jd se sl := by
  rw [scanLoop, dif_pos h, hcl]

theorem scanLoop_unfold_other (code : List Nat) (position sub_start : Nat)
    (jd se : BitSet) (sl : SubLengthBits)
    (h : position < code.length)
    (hcl : classify (code.getD position 0) = Classified.other) :
    scanLoop code position sub_start jd se sl =
      scanLoop code (position + 1) sub_start jd se sl := by
  rw [scanLoop, dif_pos h, hcl]

theorem scanLoop_unfold_done (code : List Nat) (position sub_start : Nat)
    (jd se : BitSet) (sl : SubLengthBits)
    (h : ¬ position < code.length) :
    scanLoop code position sub_start jd se sl = (jd, se, sl, position, sub_start) := by
  rw [scanLoop, dif_neg h]

theorem nextPosition_jumpdest (code : List Nat) (position : Nat)
    (hcl : classify (code.getD position 0) = Classified.jumpdest) :
    nextPosition code position = position + 1 := by
  unfold nextPosition
  rw [hcl]

theorem nextPosition_beginsub (code : List Nat) (position : Nat)
    (hcl : classify (code.getD position 0) = Classified.beginsub) :
    nextPosition code position = position + 1 := by
  unfold nextPosition
  rw [hcl]

theorem nextPosition_push (code : List Nat) (position k : Nat)
    (hcl : classify (code.getD position 0) = Classified.push k) :
    nextPosition code position = position + k + 1 := by
  unfold nextPosition
  rw [hcl]

theorem nextPosition_other (code : List Nat) (position : Nat)
    (hcl : classify (code.getD position 0) = Classified.other) :
    nextPosition code position = position + 1 := by
  unfold nextPosition
  rw [hcl]

theorem scanPositions_ge (code : List Nat) :
    ∀ position, ∀ q ∈ scanPositions code position, position ≤ q := by
  intro position
  induction position using scanPositions.induct code with
  | case1 position h ih =>
    intro q hq
    rw [scanPositions_unfold code position h] at hq
    rcases List.mem_cons.mp hq with rfl | hq
    · exact le_refl q
    · have := ih q hq
      have := lt_nextPosition code position
      omega
  | case2 position h =>
    intro q hq
    rw [scanPositions, dif_neg h] at hq
    cases hq

theorem scanPositions_push_gap (code : List Nat) :
    ∀ position p k o, p ∈ scanPositions code position →
      classify (code.getD p 0) = Classified.push k →
      p < o → o ≤ p + k → o ∉ scanPositions code position := by
  intro position
  induction position using scanPositions.induct code with
  | case1 position h ih =>
    intro p k o hp hpush ho1 ho2 ho
    rw [scanPositions_unfold code position h] at hp ho
    rcases List.mem_cons.mp hp with rfl | hp
    · have hnext : nextPosition code p = p + k + 1 :=
        nextPosition_push code p k hpush
      rcases List.mem_cons.mp ho with rfl | ho
      · omega
      · have := scanPositions_ge code (nextPosition code p) o ho
        omega
    · have hge := scanPositions_ge code (nextPosition code position) p hp
      have hgt := lt_nextPosition code position
      rcases List.mem_cons.mp ho with rfl | ho
      · omega
      · exact ih p k o hp hpush ho1 ho2 ho
  | case2 position h =>
    intro p k o hp hpush ho1 ho2 ho
    rw [scanPositions, dif_neg h] at hp
    cases hp

theorem scanLoop_mem_sets (code : List Nat) :
    ∀ position sub_start jd se sl,
      (∀ x ∈ (scanLoop code position sub_start jd se sl).1.bits,
          x ∈ jd.bits ∨ x ∈ scanPositions code position) ∧
      (∀ x ∈ (scanLoop code position sub_start jd se sl).2.1.bits,
          x ∈ se.bits ∨ x ∈ scanPositions code position) := by
  intro position sub_start jd se sl
  induction position, sub_start, jd, se, sl using scanLoop.induct code with
  | case1 position sub_start jd se sl h hcl ih =>
    rw [scanLoop_unfold_jumpdest code position sub_start jd se sl h hcl]
    have hnext := nextPosition_jumpdest code position hcl
    constructor
    · intro x hx
      rcases ih.1 x hx with hj | hs
      · unfold BitSet.insert at hj
        rcases Finset.mem_insert.mp hj with rfl | hj
        · right
          rw [scanPositions_unfold code x h]
          exact List.mem_cons_self x _
        · exact Or.inl hj
      · right
        rw [scanPositions_unfold code position h, hnext]
        exact List.mem_cons_of_mem _ hs
    · intro x hx
      rcases ih.2 x hx with hj | hs
      · exact Or.inl hj
      · right
        rw [scanPositions_unfold code position h, hnext]
        exact List.mem_cons_of_mem _ hs
  | case2 position sub_start jd se sl h hcl ih =>
    rw [scanLoop_unfold_beginsub code position sub_start jd se sl h hcl]
    have hnext := nextPosition_beginsub code position hcl
    constructor
    · intro x hx
      rcases ih.1 x hx with hj | hs
      · exact Or.inl hj
      · right
        rw [scanPositions_unfold code position h, hnext]
        exact List.mem_cons_of_mem _ hs
    · intro x hx
      rcases ih.2 x hx with hj | hs
      · unfold BitSet.insert at hj
        rcases Finset.mem_insert.mp hj with rfl | hj
        · right
          rw [scanPositions_unfold code x h]
          exact List.mem_cons_self x _
        · exact Or.inl hj
      · right
        rw [scanPositions_unfold code position h, hnext]
        exact List.mem_cons_of_mem _ hs
  | case3 position sub_start jd se sl h k hcl ih =>
    rw [scanLoop_unfold_push code position sub_start k jd se sl h hcl]
    have hnext := nextPosition_push code position k hcl
    constructor
    · intro x hx
      rcases ih.1 x hx with hj | hs
      · exact Or.inl hj
      · right
        rw [scanPositions_unfold code position h, hnext]
        exact List.mem_cons_of_mem _ hs
    · intro x hx
      rcases ih.2 x hx with hj | hs
      · exact Or.inl hj
      · right
        rw [scanPositions_unfold code position h, hnext]
        exact List.mem_cons_of_mem _ hs
  | case4 position sub_start jd se sl h hcl ih =>
    rw [scanLoop_unfold_other code position sub_start jd se sl h hcl]
    have hnext := nextPosition_other code position hcl
    constructor
    · intro x hx
      rcases ih.1 x hx with hj | hs
      · exact Or.inl hj
      · right
        rw [scanPositions_unfold code position h, hnext]
        exact List.mem_cons_of_mem _ hs
    · intro x hx
      rcases ih.2 x hx with hj | hs
      · exact Or.inl hj
      · right
        rw [scanPositions_unfold code position h, hnext]
        exact List.mem_cons_of_mem _ hs
  | case5 position sub_start jd se sl h =>
    rw [scanLoop_unfold_done code position sub_start jd se sl h]
    exact ⟨fun x hx => Or.inl hx, fun x hx => Or.inl hx⟩

theorem classify_beginsub_iff (b : Nat) : classify b = Classified.beginsub ↔ b = 0x5c := by
  unfold classify
  split_ifs with h1 h2 h3 <;> simp_all

theorem getD_mem_of_lt (code : List Nat) (position : Nat) (h : position < code.length) :
    code.getD position 0 ∈ code := by
  rw [List.getD_eq_getElem code 0 h]
  exact List.getElem_mem h

theorem scanLoop_no_beginsub (code : List Nat) (hcode : ∀ b ∈ code, b ≠ 0x5c) :
    ∀ position sub_start jd se sl,
      (scanLoop code position sub_start jd se sl).2.1 = se ∧
      (scanLoop code position sub_start jd se sl).2.2.1 = sl ∧
      (scanLoop code position sub_start jd se sl).2.2.2.2 = sub_start := by
  intro position sub_start jd se sl
  induction position, sub_start, jd, se, sl using scanLoop.induct code with
  | case1 position sub_start jd se sl h hcl ih =>
    rw [scanLoop_unfold_jumpdest code position sub_start jd se sl h hcl]
    exact ih
  | case2 position sub_start jd se sl h hcl ih =>
    exact absurd ((classify_beginsub_iff _).mp hcl)
      (hcode _ (getD_mem_of_lt code position h))
  | case3 position sub_start jd se sl h k hcl ih =>
    rw [scanLoop_unfold_push code position sub_start k jd se sl h hcl]
    exact ih
  | case4 position sub_start jd se sl h hcl ih =>
    rw [scanLoop_unfold_other code position sub_start jd se sl h hcl]
    exact ih
  | case5 position sub_start jd se sl h =>
    rw [scanLoop_unfold_done code position sub_start jd se sl h]
    exact ⟨rfl, rfl, rfl⟩

/-- Final value of the `position` cursor after the scan loop; it exceeds
`code.length` exactly when the last instruction is a push whose declared
immediate data overruns the end of the buffer. -/
def scanEnd (code : List Nat) : Nat :=
  (scanLoop code 0 0 (BitSet.with_capacity code.length)
    (BitSet.with_capacity code.length) (SubLengthBits.new code)).2.2.2.1

theorem scanLoop_disjoint (code : List Nat) :
    ∀ position sub_start jd se sl,
      (∀ x ∈ jd.bits, x < position) → (∀ x ∈ se.bits, x < position) →
      (∀ x, x ∈ jd.bits → x ∈ se.bits → False) →
      ∀ x, x ∈ (scanLoop code position sub_start jd se sl).1.bits →
        x ∈ (scanLoop code position sub_start jd se sl).2.1.bits → False := by
  intro position sub_start jd se sl
  induction position, sub_start, jd, se, sl using scanLoop.induct code with
  | case1 position sub_start jd se sl h hcl ih =>
    intro hjb hsb hdis
    rw [scanLoop_unfold_jumpdest code position sub_start jd se sl h hcl]
    refine ih ?_ ?_ ?_
    · intro x hx
      unfold BitSet.insert at hx
      rcases Finset.mem_insert.mp hx with rfl | hx
      · omega
      · have := hjb x hx
        omega
    · intro x hx
      have := hsb x hx
      omega
    · intro x hx hy
      unfold BitSet.insert at hx
      rcases Finset.mem_insert.mp hx with rfl | hx
      · have := hsb x hy
        omega
      · exact hdis x hx hy
  | case2 position sub_start jd se sl h hcl ih =>
    intro hjb hsb hdis
    rw [scanLoop_unfold_beginsub code position sub_start jd se sl h hcl]
    refine ih ?_ ?_ ?_
    · intro x hx
      have := hjb x hx
      omega
    · intro x hx
      unfold BitSet.insert at hx
      rcases Finset.mem_insert.mp hx with rfl | hx
      · omega
      · have := hsb x hx
        omega
    · intro x hx hy
      unfold BitSet.insert at hy
      rcases Finset.mem_insert.mp hy with rfl | hy
      · have := hjb x hx
        omega
      · exact hdis x hx hy
  | case3 position sub_start jd se sl h k hcl ih =>
    intro hjb hsb hdis
    rw [scanLoop_unfold_push code position sub_start k jd se sl h hcl]
    refine ih ?_ ?_ hdis
    · intro x hx
      have := hjb x hx
      omega
    · intro x hx
      have := hsb x hx
      omega
  | case4 position sub_start jd se sl h hcl ih =>
    intro hjb hsb hdis
    rw [scanLoop_unfold_other code position sub_start jd se sl h hcl]
    refine ih ?_ ?_ hdis
    · intro x hx
      have := hjb x hx
      omega
    · intro x hx
      have := hsb x hx
      omega
  | case5 position sub_start jd se sl h =>
    intro hjb hsb hdis
    rw [scanLoop_unfold_done code position sub_start jd se sl h]
    exact hdis

/-! ### Claim theorems -/

/-- C1 (amended): round-trip of the Subroutine Length Index — for every
start offset and boundaries set, calling `store(start, length)` on a
fresh index and then `find_length(start, boundaries)` returns exactly
`length`, provided `length` fits in a machine word, `start + length` is
at most the capacity of the boundaries set, and no boundary offset lies
in the interval `[start, start + length)`.  (The original premise — the
binary width of `length` fits before the next boundary offset after
`start` — is not sufficient: the decode loop stops when `start` plus the
partially decoded value hits a boundary, so the whole value, not just its
width, must fit in the gap.) -/
theorem store_find_length_roundtrip (code : List Nat) (start L : Nat) (bs : BitSet)
    (hL : L < 2 ^ usize_bits) (hcap : start + L ≤ bs.capacity)
    (hb : ∀ p, p < L → (start + p) ∉ bs.bits) :
    ((SubLengthBits.new code).store start L).find_length start bs = L :=
  find_length_store_fresh code start L bs hL hcap hb

theorem store_find_length_roundtrip_witness :
    5 < 2 ^ usize_bits ∧ 0 + 5 ≤ (BitSet.mk 5 ∅).capacity ∧
    (∀ p, p < 5 → (0 + p) ∉ (BitSet.mk 5 ∅).bits) ∧
    ((SubLengthBits.new (List.replicate 5 0)).store 0 5).find_length 0 (BitSet.mk 5 ∅) = 5 :=
  ⟨by norm_num [usize_bits], by norm_num, by intro p hp; simp,
   store_find_length_roundtrip (List.replicate 5 0) 0 5 (BitSet.mk 5 ∅)
     (by norm_num [usize_bits]) (by norm_num) (by intro p hp; simp)⟩

/-- C1 counterexample: with boundaries `{3}` (capacity 10), start `0` and
length `7`, the binary width of `7` (bits at offsets 0, 1, 2) fits before
the next boundary offset `3` after the start — the claim's premise — yet
`store(0, 7)` on a fresh index followed by `find_length(0, {3})` returns
`3`, not `7`: after reading two bits the partial value is `3`, and
`0 + 3` is a boundary, so the loop stops early. -/
theorem store_find_length_roundtrip_cex :
    (∀ b ∈ (BitSet.mk 10 {3}).bits, 0 < b → ∀ i, (7 : Nat).testBit i = true → 0 + i < b) ∧
    ((SubLengthBits.new (List.replicate 10 0)).store 0 7).find_length 0 (BitSet.mk 10 {3}) = 3 ∧
    (3 : Nat) ≠ 7 := by
  refine ⟨?_, ?_, by norm_num⟩
  · intro b hb hpos i hi
    have hb3 : b = 3 := by simpa using hb
    subst hb3
    by_contra hc
    push_neg at hc
    have h7 : (7 : Nat) < 2 ^ i :=
      lt_of_lt_of_le (by norm_num : (7 : Nat) < 2 ^ 3)
        (Nat.pow_le_pow_right (by norm_num) (by omega))
    rw [Nat.testBit_lt_two_pow h7] at hi
    cases hi
  · have hbm : ((SubLengthBits.new (List.replicate 10 0)).store 0 7) =
        SubLengthBits.mk (BitSet.mk 10 ({0, 1, 2} : Finset Nat)) := by
      unfold SubLengthBits.store SubLengthBits.new BitSet.with_capacity
      rw [storeLoop, storeLoop, storeLoop, storeLoop]
      norm_num [BitSet.insert, Nat.shiftRight_one]
      decide
    rw [hbm]
    unfold SubLengthBits.find_length
    rw [findLoop, findLoop, findLoop]
    simp [BitSet.contains, usize_bits]

/-- C2 counterexample: with the bitmap `{1}` (the encoding of the value
`2` at offset 0) and boundaries `{1}` (capacity 2), the rule of the claim
— reading bits `start, start + 1, ...` and stopping exclusively at the
first boundary offset strictly greater than `start` — would read only bit
`0` and return `0`, but `find_length(0, {1})` returns `2`: the loop's
boundary test is applied to `start` plus the partial value (`0`, then
`2`), which never hits the boundary at offset `1`. -/
theorem find_length_decode_rule_cex :
    (SubLengthBits.mk (BitSet.mk 2 {1})).find_length 0 (BitSet.mk 2 {1}) = 2 ∧
    find_length_claimed_rule (SubLengthBits.mk (BitSet.mk 2 {1})) 0 (BitSet.mk 2 {1}) = 0 := by
  constructor
  · unfold SubLengthBits.find_length
    rw [findLoop, findLoop]
    simp [BitSet.contains, usize_bits]
  · decide

/-- C3: push-data is never misread as code — for every code buffer and
every offset `o` within the `k` immediate-data bytes following a push
instruction at a scanned position `p` (scanned means: `p` is reached by
the cursor, hence not itself inside earlier push-data), `o` is in neither
the jump-destination set nor the subroutine-entry set of the analysis. -/
theorem push_data_not_marked (code : List Nat) (p k o : Nat)
    (hp : p ∈ scanPositions code 0)
    (hpush : classify (code.getD p 0) = Classified.push k)
    (ho1 : p < o) (ho2 : o ≤ p + k) :
    o ∉ (SharedCache.find_jump_and_sub_destinations code).jump_destination.bits ∧
    o ∉ (SharedCache.find_jump_and_sub_destinations code).sub_entrypoint.bits := by
  have hgap := scanPositions_push_gap code 0 p k o hp hpush ho1 ho2
  have hmem := scanLoop_mem_sets code 0 0 (BitSet.with_capacity code.length)
    (BitSet.with_capacity code.length) (SubLengthBits.new code)
  constructor
  · intro hx
    rcases hmem.1 o hx with hj | hs
    · simp [BitSet.with_capacity] at hj
    · exact hgap hs
  · intro hx
    rcases hmem.2 o hx with hj | hs
    · simp [BitSet.with_capacity] at hj
    · exact hgap hs

theorem push_data_not_marked_witness :
    0 ∈ scanPositions [0x60, 0x5b] 0 ∧
    classify (([0x60, 0x5b] : List Nat).getD 0 0) = Classified.push 1 ∧
    1 ∉ (SharedCache.find_jump_and_sub_destinations [0x60, 0x5b]).jump_destination.bits ∧
    1 ∉ (SharedCache.find_jump_and_sub_destinations [0x60, 0x5b]).sub_entrypoint.bits := by
  have hnp : nextPosition [0x60, 0x5b] 0 = 2 := by decide
  have hsp : scanPositions [0x60, 0x5b] 0 = [0] := by
    rw [scanPositions_unfold _ _ (by norm_num), hnp, scanPositions, dif_neg (by norm_num)]
  have hp : 0 ∈ scanPositions [0x60, 0x5b] 0 := by
    rw [hsp]
    exact List.mem_cons_self 0 []
  have hcl : classify (([0x60, 0x5b] : List Nat).getD 0 0) = Classified.push 1 := by decide
  have := push_data_not_marked [0x60, 0x5b] 0 1 1 hp hcl (by norm_num) (by norm_num)
  exact ⟨hp, hcl, this.1, this.2⟩

/-- C8: totality on empty input — the analyzer is a total function (it is
defined as one here), and analyzing the empty byte sequence produces an
empty jump-destination set, an empty subroutine-entry set, and a length
index with no bit set. -/
theorem analyze_empty_total :
    (SharedCache.find_jump_and_sub_destinations []).jump_destination.bits = ∅ ∧
    (SharedCache.find_jump_and_sub_destinations []).sub_entrypoint.bits = ∅ ∧
    (SharedCache.find_jump_and_sub_destinations []).sub_length.bitmap.bits = ∅ := by
  have hdone := scanLoop_unfold_done [] 0 0 (BitSet.with_capacity 0)
    (BitSet.with_capacity 0) (SubLengthBits.new []) (by norm_num)
  have h : SharedCache.find_jump_and_sub_destinations [] =
      CacheItem.mk (BitSet.mk 0 ∅) (BitSet.mk 0 ∅) (SubLengthBits.mk (BitSet.mk 0 ∅)) := by
    simp only [SharedCache.find_jump_and_sub_destinations, List.length_nil, hdone]
    unfold SubLengthBits.store SubLengthBits.new BitSet.with_capacity
    rw [storeLoop]
    norm_num
  rw [h]
  exact ⟨rfl, rfl, rfl⟩

/-- C10: the jump-destination set and the subroutine-entry set produced
by one analysis are disjoint as sets of offsets: every scanned position
is classified as exactly one instruction, so no offset is inserted into
both sets. -/
theorem jump_sub_sets_disjoint (code : List Nat) :
    (SharedCache.find_jump_and_sub_destinations code).jump_destination.bits ∩
      (SharedCache.find_jump_and_sub_destinations code).sub_entrypoint.bits = ∅ := by
  rw [Finset.eq_empty_iff_forall_not_mem]
  intro x hx
  rw [Finset.mem_inter] at hx
  refine scanLoop_disjoint code 0 0 (BitSet.with_capacity code.length)
    (BitSet.with_capacity code.length) (SubLengthBits.new code)
    ?_ ?_ ?_ x hx.1 hx.2
  · intro y hy
    simp [BitSet.with_capacity] at hy
  · intro y hy
    simp [BitSet.with_capacity] at hy
  · intro y hy
    simp [BitSet.with_capacity] at hy

/-- C4 (amended): after the scan loop the analyzer stores
`position - sub_start` — where `position` is the final value of the scan
cursor, which equals `len(code)` unless the trailing instruction is a
push whose declared immediate data overruns the buffer end — as the
length of the subroutine starting at `sub_start`, even when no
subroutine-entry markers were seen; in particular, for every code without
subroutine-entry markers whose final cursor equals `len(code)`, decoding
the length index at offset 0 against the (empty) subroutine-entry set
yields `len(code)`. -/
theorem final_subroutine_length (code : List Nat)
    (hsub : ∀ b ∈ code, b ≠ 0x5c)
    (hend : scanEnd code = code.length)
    (hlen : code.length < 2 ^ usize_bits) :
    (SharedCache.find_jump_and_sub_destinations code).sub_entrypoint.bits = ∅ ∧
    (SharedCache.find_jump_and_sub_destinations code).sub_length.find_length 0
      (SharedCache.find_jump_and_sub_destinations code).sub_entrypoint = code.length := by
  have hno := scanLoop_no_beginsub code hsub 0 0 (BitSet.with_capacity code.length)
      (BitSet.with_capacity code.length) (SubLengthBits.new code)
  constructor
  · show (scanLoop code 0 0 (BitSet.with_capacity code.length)
        (BitSet.with_capacity code.length) (SubLengthBits.new code)).2.1.bits = ∅
    rw [hno.1]
    rfl
  · show ((scanLoop code 0 0 (BitSet.with_capacity code.length)
          (BitSet.with_capacity code.length) (SubLengthBits.new code)).2.2.1.store
        (scanLoop code 0 0 (BitSet.with_capacity code.length)
          (BitSet.with_capacity code.length) (SubLengthBits.new code)).2.2.2.2
        ((scanLoop code 0 0 (BitSet.with_capacity code.length)
          (BitSet.with_capacity code.length) (SubLengthBits.new code)).2.2.2.1 -
         (scanLoop code 0 0 (BitSet.with_capacity code.length)
          (BitSet.with_capacity code.length) (SubLengthBits.new code)).2.2.2.2)).find_length 0
        (scanLoop code 0 0 (BitSet.with_capacity code.length)
          (BitSet.with_capacity code.length) (SubLengthBits.new code)).2.1 = code.length
    have hpos : (scanLoop code 0 0 (BitSet.with_capacity code.length)
        (BitSet.with_capacity code.length) (SubLengthBits.new code)).2.2.2.1 = code.length := hend
    rw [hno.1, hno.2.1, hno.2.2, hpos, Nat.sub_zero]
    refine find_length_store_fresh code 0 code.length (BitSet.with_capacity code.length) hlen ?_ ?_
    · simp [BitSet.with_capacity]
    · intro p hp
      simp [BitSet.with_capacity]

theorem final_subroutine_length_witness :
    (∀ b ∈ ([0x5b] : List Nat), b ≠ 0x5c) ∧
    scanEnd [0x5b] = ([0x5b] : List Nat).length ∧
    ([0x5b] : List Nat).length < 2 ^ usize_bits ∧
    (SharedCache.find_jump_and_sub_destinations [0x5b]).sub_entrypoint.bits = ∅ ∧
    (SharedCache.find_jump_and_sub_destinations [0x5b]).sub_length.find_length 0
      (SharedCache.find_jump_and_sub_destinations [0x5b]).sub_entrypoint =
      ([0x5b] : List Nat).length := by
  have hsub : ∀ b ∈ ([0x5b] : List Nat), b ≠ 0x5c := by decide
  have hend : scanEnd [0x5b] = ([0x5b] : List Nat).length := by
    unfold scanEnd
    rw [scanLoop_unfold_jumpdest _ _ _ _ _ _ (by norm_num) (by decide),
        scanLoop_unfold_done _ _ _ _ _ _ (by norm_num)]
    norm_num
  have hlen : ([0x5b] : List Nat).length < 2 ^ usize_bits := by norm_num [usize_bits]
  have hmain := final_subroutine_length [0x5b] hsub hend hlen
  exact ⟨hsub, hend, hlen, hmain.1, hmain.2⟩

/-- C4 counterexample: for the one-byte code `[0x60]` (a PUSH1 whose
immediate byte is missing), the scan cursor ends at `2`, so the analyzer
stores `2`, not `len(code) - sub_start = 1`: the code has no
subroutine-entry markers, yet decoding the length index at offset 0
against the empty subroutine-entry set yields `2`, not `len(code) = 1`. -/
theorem final_subroutine_length_cex :
    (∀ b ∈ ([0x60] : List Nat), b ≠ 0x5c) ∧
    (SharedCache.find_jump_and_sub_destinations [0x60]).sub_entrypoint.bits = ∅ ∧
    (SharedCache.find_jump_and_sub_destinations [0x60]).sub_length.find_length 0
      (SharedCache.find_jump_and_sub_destinations [0x60]).sub_entrypoint = 2 ∧
    ([0x60] : List Nat).length = 1 ∧ (2 : Nat) ≠ 1 := by
  have h : SharedCache.find_jump_and_sub_destinations [0x60] =
      CacheItem.mk (BitSet.mk 1 ∅) (BitSet.mk 1 ∅) (SubLengthBits.mk (BitSet.mk 2 {1})) := by
    simp only [SharedCache.find_jump_and_sub_destinations]
    rw [scanLoop_unfold_push _ 0 0 1 _ _ _ (by norm_num) (by decide),
        scanLoop_unfold_done _ _ _ _ _ _ (by norm_num)]
    unfold SubLengthBits.store SubLengthBits.new BitSet.with_capacity
    rw [storeLoop, storeLoop]
    norm_num [BitSet.insert, Nat.shiftRight_one]
    rw [storeLoop]
    norm_num
  rw [h]
  refine ⟨by decide, rfl, ?_, by norm_num, by norm_num⟩
  unfold SubLengthBits.find_length
  rw [findLoop, findLoop]
  simp [BitSet.contains, usize_bits]

/-! ### Helper lemmas about the cache -/

theorem totalFootprint_filter_le (p : Nat × CacheItem → Bool) (l : List (Nat × CacheItem)) :
    totalFootprint (l.filter p) ≤ totalFootprint l := by
  unfold totalFootprint
  refine List.Sublist.sum_le_sum ?_ ?_
  · exact List.Sublist.map _ (List.filter_sublist l)
  · intro a ha
    exact Nat.zero_le a

theorem evictLRU_le (max : Nat) (l : List (Nat × CacheItem)) :
    totalFootprint (evictLRU max l) ≤ max := by
  generalize hn : l.length = n
  induction n using Nat.strong_induction_on generalizing l with
  | _ n ih =>
  rw [evictLRU.eq_def]
  by_cases hc : totalFootprint l ≤ max
  · rw [if_pos hc]
    exact hc
  · rw [if_neg hc]
    cases l with
    | nil => simp [totalFootprint]
    | cons a as =>
      refine ih ((a :: as).dropLast).length ?_ _ rfl
      rw [List.length_dropLast]
      subst hn
      simp

theorem find?_footprint_le (h : Nat) :
    ∀ (l : List (Nat × CacheItem)) (e : Nat × CacheItem),
      l.find? (fun x => x.1 == h) = some e →
      e.2.footprint + totalFootprint (l.filter (fun x => x.1 != h)) ≤ totalFootprint l := by
  intro l
  induction l with
  | nil =>
    intro e he
    simp at he
  | cons a as ih =>
    intro e he
    rcases hpa : (a.1 == h) with _ | _
    · simp only [List.find?_cons, hpa] at he
      have hih := ih e he
      have hne : (a.1 != h) = true := by simp [bne, hpa]
      simp only [totalFootprint] at hih
      simp [List.filter_cons, hne, totalFootprint]
      omega
    · simp only [List.find?_cons, hpa] at he
      obtain rfl : e = a := by
        injection he with h2
        exact h2.symm
      have hne : (e.1 != h) = false := by simp [bne, hpa]
      have hle := totalFootprint_filter_le (fun x => x.1 != h) as
      simp only [totalFootprint] at hle
      simp [List.filter_cons, hne, totalFootprint]
      omega

theorem get_mut_footprint_le (c : MemoryLruCache) (h : Nat) :
    totalFootprint (c.get_mut h).2.entries ≤ totalFootprint c.entries := by
  unfold MemoryLruCache.get_mut
  cases hf : c.entries.find? (fun e => e.1 == h) with
  | none => exact le_refl _
  | some e =>
    have := find?_footprint_le h c.entries e hf
    simp only [totalFootprint, List.map_cons, List.sum_cons] at *
    omega

theorem get_mut_max_size (c : MemoryLruCache) (h : Nat) :
    (c.get_mut h).2.max_size = c.max_size := by
  unfold MemoryLruCache.get_mut
  cases c.entries.find? (fun e => e.1 == h) <;> rfl

theorem insert_footprint_le (c : MemoryLruCache) (h : Nat) (v : CacheItem) :
    totalFootprint (c.insert h v).entries ≤ c.max_size := by
  unfold MemoryLruCache.insert
  exact evictLRU_le c.max_size _

theorem jump_and_sub_destinations_none (cache : SharedCache) (code : List Nat) :
    cache.jump_and_sub_destinations none code =
      (((SharedCache.find_jump_and_sub_destinations code).jump_destination,
        (SharedCache.find_jump_and_sub_destinations code).sub_entrypoint,
        (SharedCache.find_jump_and_sub_destinations code).sub_length), cache) := rfl

theorem jump_and_sub_destinations_some (cache : SharedCache) (h : Nat) (code : List Nat) :
    cache.jump_and_sub_destinations (some h) code =
      if h = KECCAK_EMPTY then
        (((SharedCache.find_jump_and_sub_destinations code).jump_destination,
          (SharedCache.find_jump_and_sub_destinations code).sub_entrypoint,
          (SharedCache.find_jump_and_sub_destinations code).sub_length), cache)
      else
        match cache.jump_destinations.get_mut h with
        | (some d, t) => ((d.jump_destination, d.sub_entrypoint, d.sub_length), ⟨t⟩)
        | (none, t) =>
            (((SharedCache.find_jump_and_sub_destinations code).jump_destination,
              (SharedCache.find_jump_and_sub_destinations code).sub_entrypoint,
              (SharedCache.find_jump_and_sub_destinations code).sub_length),
             ⟨t.insert h (SharedCache.find_jump_and_sub_destinations code)⟩) := rfl

theorem get_mut_eq_of_find_some (c : MemoryLruCache) (h : Nat) (e : Nat × CacheItem)
    (hf : c.entries.find? (fun x => x.1 == h) = some e) :
    c.get_mut h =
      (some e.2, ⟨c.max_size, e :: c.entries.filter (fun e2 => e2.1 != h)⟩) := by
  unfold MemoryLruCache.get_mut
  rw [hf]

theorem applyCall_budget (max : Nat) (c : SharedCache) (call : Option Nat × List Nat)
    (hmax : c.jump_destinations.max_size = max)
    (hinv : totalFootprint c.jump_destinations.entries ≤ max) :
    (applyCall c call).jump_destinations.max_size = max ∧
    totalFootprint (applyCall c call).jump_destinations.entries ≤ max := by
  obtain ⟨oh, code⟩ := call
  unfold applyCall
  dsimp only
  cases oh with
  | none =>
    rw [jump_and_sub_destinations_none]
    exact ⟨hmax, hinv⟩
  | some h =>
    rw [jump_and_sub_destinations_some]
    by_cases he : h = KECCAK_EMPTY
    · rw [if_pos he]
      exact ⟨hmax, hinv⟩
    · rw [if_neg he]
      rcases hg : c.jump_destinations.get_mut h with ⟨od, t⟩
      have ht2 : (c.jump_destinations.get_mut h).2 = t := by rw [hg]
      have htmax : t.max_size = max := by
        rw [← ht2, get_mut_max_size]
        exact hmax
      have htfoot : totalFootprint t.entries ≤ max := by
        rw [← ht2]
        exact le_trans (get_mut_footprint_le c.jump_destinations h) hinv
      cases od with
      | some d => exact ⟨htmax, htfoot⟩
      | none =>
        constructor
        · show (t.insert h (SharedCache.find_jump_and_sub_destinations code)).max_size = max
          unfold MemoryLruCache.insert
          exact htmax
        · show totalFootprint
            (t.insert h (SharedCache.find_jump_and_sub_destinations code)).entries ≤ max
          rw [← htmax]
          exact insert_footprint_le t h _

/-! ### Cache claim theorems -/

/-- C7: cache byte-budget invariant — after any sequence of
`get_or_compute` calls starting from a fresh cache with byte budget
`max`, the total estimated footprint of all entries retained in the table
is at most `max`. -/
theorem cache_byte_budget_invariant (max : Nat) (calls : List (Option Nat × List Nat)) :
    totalFootprint ((calls.foldl applyCall (SharedCache.new max)).jump_destinations.entries) ≤
      max := by
  suffices h : ∀ c : SharedCache, c.jump_destinations.max_size = max →
      totalFootprint c.jump_destinations.entries ≤ max →
      (calls.foldl applyCall c).jump_destinations.max_size = max ∧
      totalFootprint (calls.foldl applyCall c).jump_destinations.entries ≤ max by
    refine (h (SharedCache.new max) rfl ?_).2
    simp [SharedCache.new, MemoryLruCache.new, totalFootprint]
  induction calls with
  | nil =>
    intro c h1 h2
    exact ⟨h1, h2⟩
  | cons x xs ih =>
    intro c h1 h2
    have hstep := applyCall_budget max c x h1 h2
    simpa using ih (applyCall c x) hstep.1 hstep.2

/-- C6: empty-code-hash bypass — a call with the well-known empty-code
hash returns the fresh analysis of the code and leaves the cache state
exactly unchanged (no lookup, no insert), and hence any number of
repeated such calls leaves the table unchanged. -/
theorem empty_code_hash_bypass (cache : SharedCache) (code : List Nat) (n : Nat) :
    (cache.jump_and_sub_destinations (some KECCAK_EMPTY) code).1 =
      ((SharedCache.find_jump_and_sub_destinations code).jump_destination,
       (SharedCache.find_jump_and_sub_destinations code).sub_entrypoint,
       (SharedCache.find_jump_and_sub_destinations code).sub_length) ∧
    (cache.jump_and_sub_destinations (some KECCAK_EMPTY) code).2 = cache ∧
    (fun c : SharedCache =>
      (c.jump_and_sub_destinations (some KECCAK_EMPTY) code).2)^[n] cache = cache := by
  have hstate : ∀ c : SharedCache,
      (c.jump_and_sub_destinations (some KECCAK_EMPTY) code).2 = c := by
    intro c
    rw [jump_and_sub_destinations_some, if_pos rfl]
  refine ⟨?_, hstate cache, ?_⟩
  · rw [jump_and_sub_destinations_some, if_pos rfl]
  · exact Function.iterate_fixed (hstate cache) n

/-- C9: absent-hash behaviour — a call with no code hash returns the
fresh analysis of the code and leaves the cache state entirely unchanged
(nothing is looked up or inserted). -/
theorem absent_hash_fresh_no_change (cache : SharedCache) (code : List Nat) :
    (cache.jump_and_sub_destinations none code).1 =
      ((SharedCache.find_jump_and_sub_destinations code).jump_destination,
       (SharedCache.find_jump_and_sub_destinations code).sub_entrypoint,
       (SharedCache.find_jump_and_sub_destinations code).sub_length) ∧
    (cache.jump_and_sub_destinations none code).2 = cache :=
  ⟨rfl, rfl⟩

/-- C5: cache hit correctness — if the table holds under hash `h` exactly
the item produced by analyzing `code`, then `get_or_compute` with `h` and
`code` returns artifacts equal by value to a direct fresh analysis of
`code` (this also covers the empty-hash bypass branch, which recomputes
fresh). -/
theorem cache_hit_returns_fresh_analysis (cache : SharedCache) (h : Nat) (code : List Nat)
    (hhit : cache.jump_destinations.lookup h =
      some (SharedCache.find_jump_and_sub_destinations code)) :
    (cache.jump_and_sub_destinations (some h) code).1 =
      ((SharedCache.find_jump_and_sub_destinations code).jump_destination,
       (SharedCache.find_jump_and_sub_destinations code).sub_entrypoint,
       (SharedCache.find_jump_and_sub_destinations code).sub_length) := by
  rw [jump_and_sub_destinations_some]
  by_cases he : h = KECCAK_EMPTY
  · rw [if_pos he]
  · rw [if_neg he]
    unfold MemoryLruCache.lookup at hhit
    cases hf : cache.jump_destinations.entries.find? (fun e => e.1 == h) with
    | none =>
      rw [hf] at hhit
      simp at hhit
    | some e =>
      rw [hf] at hhit
      have he2 : e.2 = SharedCache.find_jump_and_sub_destinations code := by
        simpa using hhit
      rw [get_mut_eq_of_find_some cache.jump_destinations h e hf, he2]

theorem cache_hit_returns_fresh_analysis_witness :
    (SharedCache.mk (MemoryLruCache.mk 100
        [(5, SharedCache.find_jump_and_sub_destinations [0x5b])])).jump_destinations.lookup 5 =
      some (SharedCache.find_jump_and_sub_destinations [0x5b]) ∧
    ((SharedCache.mk (MemoryLruCache.mk 100
        [(5, SharedCache.find_jump_and_sub_destinations [0x5b])])).jump_and_sub_destinations
        (some 5) [0x5b]).1 =
      ((SharedCache.find_jump_and_sub_destinations [0x5b]).jump_destination,
       (SharedCache.find_jump_and_sub_destinations [0x5b]).sub_entrypoint,
       (SharedCache.find_jump_and_sub_destinations [0x5b]).sub_length) := by
  have hhit : (SharedCache.mk (MemoryLruCache.mk 100
      [(5, SharedCache.find_jump_and_sub_destinations [0x5b])])).jump_destinations.lookup 5 =
      some (SharedCache.find_jump_and_sub_destinations [0x5b]) := rfl
  exact ⟨hhit, cache_hit_returns_fresh_analysis _ 5 [0x5b] hhit⟩
